import Mathlib

/-!
Shallow embedding of `embedded-graphics-sparklines` (`src/lib.rs`): the
`Sparkline` sample store (`new`, `add`) and its `Drawable::draw`
implementation, together with spec-side formulations used for refinement
comparisons.

Modelling conventions:
* Rust `i32` / `u32` / `usize` values are Lean `Int` / `Nat`; arithmetic that
  can overflow is modelled with explicit two's-complement wrap-around,
  matching Rust release-mode (wrapping) semantics.
* Rust `f32` computations are idealized as exact rationals (`ℚ`); the
  `as i32` cast on a float is truncation toward zero saturating at the `i32`
  bounds, as in Rust. IEEE-754 rounding error is not modelled; every concrete
  input appearing in a theorem below only needs float operations that are
  exact in `f32` as well.
* The `VecDeque<i32>` is a `List Int` whose head is the deque front (the
  oldest sample).
-/

namespace Sparklines

/-- Smallest value of Rust `i32`. -/
def i32Min : Int := -(2 ^ 31)

/-- Largest value of Rust `i32`. -/
def i32Max : Int := 2 ^ 31 - 1

/-- Predicate: `v` is representable as a Rust `i32`. -/
def ValidI32 (v : Int) : Prop := i32Min ≤ v ∧ v ≤ i32Max

instance (v : Int) : Decidable (ValidI32 v) := by
  unfold ValidI32; infer_instance

/-- Two's-complement wrap-around into the `i32` range: the value produced by
Rust release-mode arithmetic whose mathematical result is `x`. -/
def wrap32 (x : Int) : Int := (x + 2 ^ 31) % 2 ^ 32 - 2 ^ 31

/-- Rust `i32` subtraction in release mode (wraps on overflow). -/
def i32Sub (a b : Int) : Int := wrap32 (a - b)

/-- Rust `i32` addition in release mode (wraps on overflow). -/
def i32Add (a b : Int) : Int := wrap32 (a + b)

/-- Rust `u32` subtraction in release mode (wraps on underflow), for `b ≤ 2^32`. -/
def u32Sub (a b : Nat) : Nat := (a + 2 ^ 32 - b) % 2 ^ 32

/-- Rust `usize` (64-bit) subtraction in release mode (wraps on underflow),
for `b ≤ 2^64`. -/
def usizeSub (a b : Nat) : Nat := (a + 2 ^ 64 - b) % 2 ^ 64

/-- Truncation toward zero of a rational, the rounding used by Rust
float-to-integer casts. -/
def ratTrunc (q : ℚ) : Int := if 0 ≤ q then ⌊q⌋ else ⌈q⌉

/-- Rust `as i32` cast applied to a float value (idealized as an exact
rational): truncate toward zero, saturating at the `i32` range bounds. -/
def ratToI32 (q : ℚ) : Int := max i32Min (min i32Max (ratTrunc q))

/-- `embedded_graphics::prelude::Point`: an integer pixel coordinate pair. -/
structure Point where
  x : Int
  y : Int
deriving DecidableEq, Repr

/-- `embedded_graphics::primitives::Rectangle`: top-left corner plus a `Size`
whose width and height are `u32`. -/
structure Rectangle where
  topLeft : Point
  width : Nat
  height : Nat
deriving DecidableEq, Repr

/-- The `Sparkline<C, F, P>` struct of `src/lib.rs`: sample buffer (front =
oldest), bounding box, capacity `max_samples`, stroke color, stroke width and
the connector closure `draw_fn`. -/
structure Sparkline (C P : Type) where
  values : List Int
  bbox : Rectangle
  max_samples : Nat
  color : C
  stroke_width : Nat
  draw_fn : Point → Point → P

variable {C P : Type} {ε : Type}

/-- `Sparkline::new`: constructs the sparkline with an empty sample store.
The source performs no validation on any argument. -/
def Sparkline.new (bbox : Rectangle) (max_samples : Nat) (color : C)
    (stroke_width : Nat) (draw_fn : Point → Point → P) : Sparkline C P :=
  ⟨[], bbox, max_samples, color, stroke_width, draw_fn⟩

/-- `Sparkline::add`: if `values.len() == max_samples`, pop the front (oldest)
sample — a no-op on an empty deque — then push `val` at the back. -/
def Sparkline.add (s : Sparkline C P) (val : Int) : Sparkline C P :=
  let vs := if s.values.length = s.max_samples then s.values.tail else s.values
  { s with values := vs ++ [val] }

/-- Folds `Sparkline.add` over a list of samples, oldest first. -/
def Sparkline.addAll (s : Sparkline C P) (vals : List Int) : Sparkline C P :=
  vals.foldl Sparkline.add s

/-- The min/max accumulator fold of `Drawable::draw` (`src/lib.rs:114-125`):
starts from the sentinels `(i32::MAX, i32::MIN)` and lowers / raises the two
components by comparison with each stored sample. -/
def minMaxFold (vals : List Int) : Int × Int :=
  vals.foldl
    (fun acc val =>
      ((if val < acc.1 then val else acc.1), (if val > acc.2 then val else acc.2)))
    (i32Max, i32Min)

/-- The `slope` value used by `Drawable::draw`: starts as
`height as f32 - stroke_width as f32` (`src/lib.rs:111`) and divided by
`(max - min) as f32` only when `max != min` (`src/lib.rs:127-130`). The
subtraction `max - min` is `i32` arithmetic and wraps on overflow. -/
def slopeOf (s : Sparkline C P) : ℚ :=
  let base : ℚ := (s.bbox.height : ℚ) - (s.stroke_width : ℚ)
  let mm := minMaxFold s.values
  if mm.2 ≠ mm.1 then base / ((i32Sub mm.2 mm.1 : Int) : ℚ) else base

/-- `px_per_seg = (self.bbox.size.width - 1) as f32 / (self.values.len() - 1) as f32`
(`src/lib.rs:132`); both subtractions are unsigned and wrap on underflow. -/
def pxPerSeg (s : Sparkline C P) : ℚ :=
  ((u32Sub s.bbox.width 1 : Nat) : ℚ) / ((usizeSub s.values.length 1 : Nat) : ℚ)

/-- The point computed for index `i` and sample `val` inside the draw loop
(`src/lib.rs:136-143`): `x = (i as f32 * px_per_seg) as i32 + top_left.x` and
`y = (top_left.y as f32 + height as f32 - (val - min) as f32 * slope
- stroke_width as f32 / 2.0) as i32`, where `val - min` is wrapping `i32`
subtraction and the final `+ top_left.x` is wrapping `i32` addition. -/
def mapPoint (s : Sparkline C P) (mn : Int) (slope px : ℚ) (i : Nat) (val : Int) :
    Point :=
  let scaled : ℚ := (s.bbox.topLeft.y : ℚ) + (s.bbox.height : ℚ)
      - ((i32Sub val mn : Int) : ℚ) * slope - (s.stroke_width : ℚ) / 2
  ⟨i32Add (ratToI32 ((i : ℚ) * px)) s.bbox.topLeft.x, ratToI32 scaled⟩

/-- The point function of one draw call: index and sample to pixel point,
with `min`, `slope` and `px_per_seg` computed from the current store. -/
def pointFn (s : Sparkline C P) (i : Nat) (val : Int) : Point :=
  mapPoint s (minMaxFold s.values).1 (slopeOf s) (pxPerSeg s) i val

/-- The full sequence of points `p` computed by the draw loop, one per stored
sample, in chronological order. -/
def drawPoints (s : Sparkline C P) : List Point :=
  s.values.enum.map fun iv => pointFn s iv.1 iv.2

/-- The draw loop as it determines submissions: walk the enumerated samples
threading `lastp` (starting from `Point::new(0, 0)`), and for every index
`i > 0` record the endpoint pair `(lastp, p)` handed to `draw_fn`
(`src/lib.rs:133-153`). -/
def segLoop (f : Nat → Int → Point) :
    List (Nat × Int) → Point → List (Point × Point)
  | [], _ => []
  | iv :: rest, lastp =>
    let p := f iv.1 iv.2
    if iv.1 > 0 then (lastp, p) :: segLoop f rest p else segLoop f rest p

/-- The ordered endpoint pairs that `Drawable::draw` passes to the connector
`draw_fn`. -/
def drawSegs (s : Sparkline C P) : List (Point × Point) :=
  segLoop (pointFn s) s.values.enum (Point.mk 0 0)

/-- The styled submissions of one `Drawable::draw` call, in order: for each
endpoint pair, the primitive `draw_fn lastp p` styled with
`PrimitiveStyle::with_stroke(color, stroke_width)` (`src/lib.rs:148-150`). -/
def drawSubs (s : Sparkline C P) : List (P × C × Nat) :=
  (drawSegs s).map fun ab => (s.draw_fn ab.1 ab.2, s.color, s.stroke_width)

/-- Runs the submissions in order against a render target, modelled as a
function from the call index and the styled primitive to a result. Returns the
successfully drawn submissions and the overall result: the `?` operator in the
draw loop (`src/lib.rs:150`) returns the first error immediately, leaving the
earlier submissions in place. -/
def submitAll (targ : Nat → P × C × Nat → Except ε Unit) :
    Nat → List (P × C × Nat) → List (P × C × Nat) × Except ε Unit
  | _, [] => ([], Except.ok ())
  | k, sub :: rest =>
    match targ k sub with
    | Except.error e => ([], Except.error e)
    | Except.ok () =>
      let r := submitAll targ (k + 1) rest
      (sub :: r.1, r.2)

/-- `Drawable::draw` run against a fallible render target: submit the styled
segments in order, fail-fast. -/
def drawExec (s : Sparkline C P) (targ : Nat → P × C × Nat → Except ε Unit) :
    List (P × C × Nat) × Except ε Unit :=
  submitAll targ 0 (drawSubs s)

/-- `Drawable::draw` borrows the sparkline immutably (`&self`): one call
yields the sparkline state after the call together with its submissions. -/
def drawCall (s : Sparkline C P) : Sparkline C P × List (P × C × Nat) :=
  (s, drawSubs s)

/-- True minimum of a sample list (`0` on the empty list). -/
def trueMin : List Int → Int
  | [] => 0
  | v :: rest => rest.foldl min v

/-- True maximum of a sample list (`0` on the empty list). -/
def trueMax : List Int → Int
  | [] => 0
  | v :: rest => rest.foldl max v

/-- The point-mapping formula exactly as the spec words it: round-to-nearest
for the two scaled products, the integer half of the stroke width, and
mathematical (non-wrapping, exact) `slope` and `pxPerSegment`. -/
def claimPoint (s : Sparkline C P) (i : Nat) (val : Int) : Point :=
  let mn := trueMin s.values
  let mx := trueMax s.values
  let px : ℚ := ((s.bbox.width : ℚ) - 1) / ((s.values.length : ℚ) - 1)
  let slope : ℚ :=
    if mx ≠ mn then
      ((s.bbox.height : ℚ) - (s.stroke_width : ℚ)) / ((mx : ℚ) - (mn : ℚ))
    else (s.bbox.height : ℚ) - (s.stroke_width : ℚ)
  ⟨round ((i : ℚ) * px) + s.bbox.topLeft.x,
   s.bbox.topLeft.y + s.bbox.height - round (((val : ℚ) - (mn : ℚ)) * slope)
     - ((s.stroke_width / 2 : Nat) : Int)⟩

/-- The amended point-mapping formula: `pxPerSegment` and `slope` are the
spec's mathematical values, but both coordinates are obtained by the
truncate-toward-zero saturating `as i32` cast the code uses — for `y` applied
to the whole expression `topLeft.y + height - (val - min) * slope
- strokeWidth / 2` with the exact rational half stroke width — and the final
`+ topLeft.x` is `i32` addition. -/
def specPoint (s : Sparkline C P) (i : Nat) (val : Int) : Point :=
  let mn := trueMin s.values
  let mx := trueMax s.values
  let px : ℚ := ((s.bbox.width : ℚ) - 1) / ((s.values.length : ℚ) - 1)
  let slope : ℚ :=
    if mx ≠ mn then
      ((s.bbox.height : ℚ) - (s.stroke_width : ℚ)) / ((mx : ℚ) - (mn : ℚ))
    else (s.bbox.height : ℚ) - (s.stroke_width : ℚ)
  ⟨i32Add (ratToI32 ((i : ℚ) * px)) s.bbox.topLeft.x,
   ratToI32 ((s.bbox.topLeft.y : ℚ) + (s.bbox.height : ℚ)
     - ((val : ℚ) - (mn : ℚ)) * slope - (s.stroke_width : ℚ) / 2)⟩

/-- Fixture bounding box used in concrete witnesses: the 16×5 box at the
origin used by the repository's own tests. -/
def box1 : Rectangle := ⟨⟨0, 0⟩, 16, 5⟩

/-- Fixture bounding box for small hand-checked renders: 4×5 at the origin. -/
def box2 : Rectangle := ⟨⟨0, 0⟩, 4, 5⟩

/-- Fixture connector function: returns the two endpoints as a pair, so the
submitted primitive records exactly which points were joined. -/
def pairFn : Point → Point → Point × Point := fun a b => (a, b)

/-- Fixture store holding the given samples, used by concrete witnesses. -/
def fixStore (vals : List Int) : Sparkline Unit (Point × Point) :=
  { values := vals, bbox := box1, max_samples := 32, color := (),
    stroke_width := 1, draw_fn := pairFn }

/-- Fixture store identical to `fixStore` except for its capacity, used to
show the capacity field does not influence rendering. -/
def fixStore2 (vals : List Int) : Sparkline Unit (Point × Point) :=
  { values := vals, bbox := box1, max_samples := 99, color := (),
    stroke_width := 1, draw_fn := pairFn }

/-- Fixture store for the point-mapping comparison: samples `[0, 1]` in the
4×5 box with stroke width 1. -/
def cexStore : Sparkline Unit (Point × Point) :=
  { values := [0, 1], bbox := box2, max_samples := 2, color := (),
    stroke_width := 1, draw_fn := pairFn }

/-- Fixture store whose sample spread overflows `i32`: it holds both
`i32::MIN` and `i32::MAX`. -/
def ovStore : Sparkline Unit (Point × Point) :=
  { values := [i32Min, 0, i32Max], bbox := box2, max_samples := 3, color := (),
    stroke_width := 1, draw_fn := pairFn }

instance {α β : Type} [DecidableEq α] [DecidableEq β] :
    DecidableEq (Except α β) := by
  intro a b
  cases a with
  | error x =>
    cases b with
    | error y =>
      exact if h : x = y then isTrue (by rw [h])
        else isFalse (by intro hc; injection hc; exact h (by assumption))
    | ok y => exact isFalse (by intro hc; exact Except.noConfusion hc)
  | ok x =>
    cases b with
    | error y => exact isFalse (by intro hc; exact Except.noConfusion hc)
    | ok y =>
      exact if h : x = y then isTrue (by rw [h])
        else isFalse (by intro hc; injection hc; exact h (by assumption))

/-- Fixture render target that rejects the submission with index 1 and
accepts every other one. -/
def failTarg : Nat → (Point × Point) × Unit × Nat → Except String Unit :=
  fun j _ => if j = 1 then Except.error "backend" else Except.ok ()

/-- Fixture render target that accepts every submission. -/
def okTarg : Nat → (Point × Point) × Unit × Nat → Except String Unit :=
  fun _ _ => Except.ok ()

/-! ## Lemmas about the sample store -/

theorem Sparkline.add_max_samples (s : Sparkline C P) (v : Int) :
    (s.add v).max_samples = s.max_samples := rfl

theorem Sparkline.addAll_max_samples (s : Sparkline C P) (l : List Int) :
    (s.addAll l).max_samples = s.max_samples := by
  induction l generalizing s with
  | nil => rfl
  | cons v rest ih =>
    simpa [Sparkline.addAll] using ih (s.add v)

theorem Sparkline.add_values (s : Sparkline C P) (v : Int)
    (hcap : 1 ≤ s.max_samples) (hlen : s.values.length ≤ s.max_samples) :
    (s.add v).values
      = (s.values ++ [v]).drop (s.values.length + 1 - s.max_samples) := by
  unfold Sparkline.add
  by_cases h : s.values.length = s.max_samples
  · have hne : s.values ≠ [] := by
      intro hnil
      rw [hnil] at h
      simp at h
      omega
    have hk : s.values.length + 1 - s.max_samples = 1 := by omega
    simp only [h, if_pos rfl, hk]
    rw [← List.drop_one, List.drop_append_of_le_length (by omega)]
    simp [List.drop_one]
  · have hk : s.values.length + 1 - s.max_samples = 0 := by omega
    simp [h, hk]

theorem Sparkline.addAll_values (l : List Int) (s : Sparkline C P)
    (hcap : 1 ≤ s.max_samples) (hlen : s.values.length ≤ s.max_samples) :
    (s.addAll l).values
      = (s.values ++ l).drop (s.values.length + l.length - s.max_samples) := by
  induction l generalizing s with
  | nil =>
    have h0 : s.values.length - s.max_samples = 0 := by omega
    simp [Sparkline.addAll, h0]
  | cons v rest ih =>
    have hadd : (s.add v).values
        = (s.values ++ [v]).drop (s.values.length + 1 - s.max_samples) :=
      s.add_values v hcap hlen
    have hlen1 : (s.add v).values.length
        = s.values.length + 1 - (s.values.length + 1 - s.max_samples) := by
      rw [hadd]; simp
    have hm := Sparkline.add_max_samples s v
    have hcap1 : 1 ≤ (s.add v).max_samples := by omega
    have hle1 : (s.add v).values.length ≤ (s.add v).max_samples := by omega
    have hstep : (s.addAll (v :: rest)).values = ((s.add v).addAll rest).values := by
      simp [Sparkline.addAll]
    rw [hstep, ih (s.add v) hcap1 hle1, hm, hadd]
    have hcat : (List.drop (s.values.length + 1 - s.max_samples) (s.values ++ [v])) ++ rest
        = List.drop (s.values.length + 1 - s.max_samples) (s.values ++ v :: rest) := by
      rw [← List.drop_append_of_le_length
        (by simp only [List.length_append, List.length_cons, List.length_nil]; omega)]
      simp
    rw [hcat, List.drop_drop]
    have hdlen : (List.drop (s.values.length + 1 - s.max_samples)
        (s.values ++ [v])).length
        = s.values.length + 1 - (s.values.length + 1 - s.max_samples) := by
      simp
    rw [hdlen]
    congr 1
    simp only [List.length_cons]
    omega

/-- C1 (amended): for every capacity at least 1 and every sequence of adds,
the store afterwards holds exactly the most recent `capacity` samples in
chronological order, so its length is `min totalAdds capacity`. -/
theorem claim_C1_sliding_window (bbox : Rectangle) (cap : Nat) (color : C)
    (sw : Nat) (fn : Point → Point → P) (seq : List Int) (hcap : 1 ≤ cap) :
    ((Sparkline.new bbox cap color sw fn).addAll seq).values
        = seq.drop (seq.length - cap)
      ∧ ((Sparkline.new bbox cap color sw fn).addAll seq).values.length
        = min seq.length cap := by
  have hv : (Sparkline.new bbox cap color sw fn).values = [] := rfl
  have hm : (Sparkline.new bbox cap color sw fn).max_samples = cap := rfl
  have h := Sparkline.addAll_values seq (Sparkline.new bbox cap color sw fn)
    (by rw [hm]; exact hcap) (by rw [hv]; simp)
  rw [hv, hm] at h
  simp only [List.nil_append, List.length_nil, Nat.zero_add] at h
  refine ⟨h, ?_⟩
  rw [h, List.length_drop]
  omega

/-- Witness for C1 at the spec's own scenario: capacity 3 and add sequence
`[10, 20, 30, 40]` leave the store holding `[20, 30, 40]`. -/
theorem claim_C1_sliding_window_witness :
    ((Sparkline.new box1 3 () 1 pairFn).addAll [10, 20, 30, 40]).values
        = [10, 20, 30, 40].drop ([10, 20, 30, 40].length - 3)
      ∧ ((Sparkline.new box1 3 () 1 pairFn).addAll [10, 20, 30, 40]).values.length
        = min [10, 20, 30, 40].length 3 :=
  claim_C1_sliding_window box1 3 () 1 pairFn [10, 20, 30, 40] (by decide)

/-- Counterexample to C1 as stated: with capacity 0 (which `new` accepts),
one `add` leaves the store with length 1, not `min 1 0 = 0` — the eviction
check `len == max_samples` fires on the empty deque, pops nothing, and the
push makes the store exceed its capacity. -/
theorem claim_C1_counterexample :
    ((Sparkline.new box1 0 () 1 pairFn).addAll [10]).values.length
      ≠ min ([10] : List Int).length 0 := by
  decide

/-- With capacity 0 the eviction branch pops from an empty deque (a no-op) on
the first add and is never taken again, so `add` always appends. -/
theorem Sparkline.add_values_zero_cap (s : Sparkline C P) (v : Int)
    (hcap : s.max_samples = 0) : (s.add v).values = s.values ++ [v] := by
  unfold Sparkline.add
  by_cases h : s.values.length = s.max_samples
  · have : s.values = [] := by
      rw [hcap] at h; exact List.eq_nil_of_length_eq_zero h
    simp [h, this]
  · simp [h]

theorem Sparkline.addAll_values_zero_cap (l : List Int) (s : Sparkline C P)
    (hcap : s.max_samples = 0) : (s.addAll l).values = s.values ++ l := by
  induction l generalizing s with
  | nil => simp [Sparkline.addAll]
  | cons v rest ih =>
    have hstep : (s.addAll (v :: rest)).values = ((s.add v).addAll rest).values := by
      simp [Sparkline.addAll]
    rw [hstep, ih (s.add v) (by simpa [Sparkline.add_max_samples] using hcap),
      s.add_values_zero_cap v hcap]
    simp

/-- C5 (amended): `new` performs no validation at all — it succeeds for every
capacity, including 0, returning an empty store with the requested capacity;
and the capacity-0 store is still usable: every `add` simply appends, so the
store grows without bound instead of failing. -/
theorem claim_C5_zero_capacity (bbox : Rectangle) (color : C) (sw : Nat)
    (fn : Point → Point → P) (cap : Nat) (seq : List Int) :
    (Sparkline.new bbox cap color sw fn).values = []
      ∧ (Sparkline.new bbox cap color sw fn).max_samples = cap
      ∧ ((Sparkline.new bbox 0 color sw fn).addAll seq).values = seq := by
  refine ⟨rfl, rfl, ?_⟩
  simpa using Sparkline.addAll_values_zero_cap seq (Sparkline.new bbox 0 color sw fn) rfl

/-- Counterexample to C5 as stated: constructing with capacity 0 succeeds and
yields a fully usable store — `add 5` stores the sample — so no
configuration error is raised at construction time. -/
theorem claim_C5_counterexample :
    (Sparkline.new box1 0 () 1 pairFn).values = []
      ∧ ((Sparkline.new box1 0 () 1 pairFn).add 5).values = [5] := by
  exact ⟨rfl, rfl⟩

/-! ## Lemmas about the min/max fold -/

theorem foldl_min_facts (l : List Int) :
    ∀ a : Int, l.foldl min a ≤ a ∧ (∀ v ∈ l, l.foldl min a ≤ v)
      ∧ (l.foldl min a = a ∨ l.foldl min a ∈ l) := by
  induction l with
  | nil => simp
  | cons v rest ih =>
    intro a
    have h := ih (min a v)
    simp only [List.foldl_cons]
    refine ⟨le_trans h.1 (min_le_left _ _), ?_, ?_⟩
    · intro w hw
      rcases List.mem_cons.mp hw with rfl | h1
      · exact le_trans h.1 (min_le_right _ _)
      · exact h.2.1 w h1
    · rcases h.2.2 with h1 | h1
      · rcases le_total a v with hav | hav
        · left; rw [h1, min_eq_left hav]
        · right; rw [h1, min_eq_right hav]; exact List.mem_cons_self _ _
      · right; exact List.mem_cons_of_mem _ h1

theorem foldl_max_facts (l : List Int) :
    ∀ a : Int, a ≤ l.foldl max a ∧ (∀ v ∈ l, v ≤ l.foldl max a)
      ∧ (l.foldl max a = a ∨ l.foldl max a ∈ l) := by
  induction l with
  | nil => simp
  | cons v rest ih =>
    intro a
    have h := ih (max a v)
    simp only [List.foldl_cons]
    refine ⟨le_trans (le_max_left _ _) h.1, ?_, ?_⟩
    · intro w hw
      rcases List.mem_cons.mp hw with rfl | h1
      · exact le_trans (le_max_right _ _) h.1
      · exact h.2.1 w h1
    · rcases h.2.2 with h1 | h1
      · rcases le_total a v with hav | hav
        · right; rw [h1, max_eq_right hav]; exact List.mem_cons_self _ _
        · left; rw [h1, max_eq_left hav]
      · right; exact List.mem_cons_of_mem _ h1

/-- The pair fold of `Drawable::draw` is componentwise a `min` fold from the
sentinel `i32::MAX` and a `max` fold from the sentinel `i32::MIN`. -/
theorem minMaxFold_eq_pair (l : List Int) :
    minMaxFold l = (l.foldl min i32Max, l.foldl max i32Min) := by
  unfold minMaxFold
  suffices h : ∀ a b : Int,
      l.foldl (fun acc val =>
        ((if val < acc.1 then val else acc.1), (if val > acc.2 then val else acc.2)))
        (a, b) = (l.foldl min a, l.foldl max b) from h _ _
  induction l with
  | nil => intro a b; rfl
  | cons v rest ih =>
    intro a b
    simp only [List.foldl_cons]
    have hmin : (if v < a then v else a) = min a v := by
      rcases lt_or_ge v a with h | h
      · rw [if_pos h, min_eq_right h.le]
      · rw [if_neg (not_lt.mpr h), min_eq_left h]
    have hmax : (if v > b then v else b) = max b v := by
      rcases lt_or_ge b v with h | h
      · rw [if_pos h, max_eq_right h.le]
      · rw [if_neg (not_lt.mpr h), max_eq_left h]
    rw [← hmin, ← hmax]
    exact ih _ _

theorem trueMin_le (l : List Int) : ∀ v ∈ l, trueMin l ≤ v := by
  cases l with
  | nil => simp
  | cons w rest =>
    intro v hv
    rcases List.mem_cons.mp hv with h1 | h1
    · exact h1 ▸ (foldl_min_facts rest w).1
    · exact (foldl_min_facts rest w).2.1 v h1

theorem trueMin_mem (l : List Int) (hne : l ≠ []) : trueMin l ∈ l := by
  cases l with
  | nil => exact absurd rfl hne
  | cons w rest =>
    rcases (foldl_min_facts rest w).2.2 with h1 | h1
    · rw [trueMin, h1]; exact List.mem_cons_self _ _
    · exact List.mem_cons_of_mem _ h1

theorem trueMax_le (l : List Int) : ∀ v ∈ l, v ≤ trueMax l := by
  cases l with
  | nil => simp
  | cons w rest =>
    intro v hv
    rcases List.mem_cons.mp hv with h1 | h1
    · exact h1 ▸ (foldl_max_facts rest w).1
    · exact (foldl_max_facts rest w).2.1 v h1

theorem trueMax_mem (l : List Int) (hne : l ≠ []) : trueMax l ∈ l := by
  cases l with
  | nil => exact absurd rfl hne
  | cons w rest =>
    rcases (foldl_max_facts rest w).2.2 with h1 | h1
    · rw [trueMax, h1]; exact List.mem_cons_self _ _
    · exact List.mem_cons_of_mem _ h1

/-- On a non-empty list of `i32`-range samples the sentinel-seeded fold
computes exactly the true minimum and maximum. -/
theorem minMaxFold_eq (l : List Int) (hne : l ≠ [])
    (hv : ∀ v ∈ l, ValidI32 v) : minMaxFold l = (trueMin l, trueMax l) := by
  obtain ⟨v0, hv0⟩ := List.exists_mem_of_ne_nil l hne
  rw [minMaxFold_eq_pair]
  have hminf := foldl_min_facts l i32Max
  have hmaxf := foldl_max_facts l i32Min
  have hminmem : l.foldl min i32Max ∈ l := by
    rcases hminf.2.2 with h1 | h1
    · have h2 : l.foldl min i32Max ≤ v0 := hminf.2.1 v0 hv0
      have h3 : v0 ≤ i32Max := (hv v0 hv0).2
      have h4 : l.foldl min i32Max = v0 := le_antisymm h2 (by rw [h1]; exact h3)
      exact h4 ▸ hv0
    · exact h1
  have hmaxmem : l.foldl max i32Min ∈ l := by
    rcases hmaxf.2.2 with h1 | h1
    · have h2 : v0 ≤ l.foldl max i32Min := hmaxf.2.1 v0 hv0
      have h3 : i32Min ≤ v0 := (hv v0 hv0).1
      have h4 : l.foldl max i32Min = v0 := le_antisymm (by rw [h1]; exact h3) h2
      exact h4 ▸ hv0
    · exact h1
  have e1 : l.foldl min i32Max = trueMin l :=
    le_antisymm (hminf.2.1 _ (trueMin_mem l hne)) (trueMin_le l _ hminmem)
  have e2 : l.foldl max i32Min = trueMax l :=
    le_antisymm (trueMax_le l _ hmaxmem) (hmaxf.2.1 _ (trueMax_mem l hne))
  rw [e1, e2]

/-- C6: for every non-empty store of `i32` samples, the single-pass fold of
`Drawable::draw` computes the true minimum and maximum of the stored values:
each component is itself a stored value and bounds all stored values from the
correct side. -/
theorem claim_C6_minmax_fold (s : Sparkline C P) (hne : s.values ≠ [])
    (hv : ∀ v ∈ s.values, ValidI32 v) :
    (minMaxFold s.values).1 ∈ s.values
      ∧ (∀ v ∈ s.values, (minMaxFold s.values).1 ≤ v)
      ∧ (minMaxFold s.values).2 ∈ s.values
      ∧ (∀ v ∈ s.values, v ≤ (minMaxFold s.values).2) := by
  have h := minMaxFold_eq s.values hne hv
  rw [h]
  exact ⟨trueMin_mem _ hne, trueMin_le _, trueMax_mem _ hne, trueMax_le _⟩

/-- Witness for C6 on the store `[3, -5, 7]`. -/
theorem claim_C6_minmax_fold_witness :
    (minMaxFold (fixStore [3, -5, 7]).values).1 ∈ (fixStore [3, -5, 7]).values
      ∧ (∀ v ∈ (fixStore [3, -5, 7]).values, (minMaxFold (fixStore [3, -5, 7]).values).1 ≤ v)
      ∧ (minMaxFold (fixStore [3, -5, 7]).values).2 ∈ (fixStore [3, -5, 7]).values
      ∧ (∀ v ∈ (fixStore [3, -5, 7]).values, v ≤ (minMaxFold (fixStore [3, -5, 7]).values).2) :=
  claim_C6_minmax_fold (fixStore [3, -5, 7]) (by decide) (by decide)

/-! ## The draw loop emits exactly the adjacent point pairs -/

theorem segLoop_enumFrom (f : Nat → Int → Point) (l : List Int) :
    ∀ (j : Nat) (lastp : Point), 1 ≤ j →
      segLoop f (l.enumFrom j) lastp
        = (lastp :: (l.enumFrom j).map fun iv => f iv.1 iv.2).zip
            ((l.enumFrom j).map fun iv => f iv.1 iv.2) := by
  induction l with
  | nil => intro j lastp hj; rfl
  | cons v rest ih =>
    intro j lastp hj
    rw [List.enumFrom_cons]
    simp only [segLoop, List.map_cons]
    rw [if_pos (by omega : j > 0), ih (j + 1) (f j v) (by omega)]
    rfl

/-- The endpoint pairs handed to `draw_fn` are exactly the adjacent pairs of
the mapped point sequence, in chronological order. -/
theorem drawSegs_eq_zip (s : Sparkline C P) :
    drawSegs s = (drawPoints s).zip (drawPoints s).tail := by
  unfold drawSegs drawPoints
  cases hv : s.values with
  | nil => rfl
  | cons v rest =>
    rw [List.enum_cons]
    simp only [segLoop, List.map_cons]
    rw [if_neg (by omega : ¬ (0 : Nat) > 0),
      segLoop_enumFrom (pointFn s) rest 1 (pointFn s 0 v) (by omega)]
    rfl

theorem drawPoints_length (s : Sparkline C P) :
    (drawPoints s).length = s.values.length := by
  simp [drawPoints]

/-- C7: with at least two samples, the submissions are exactly the connector
applied to each adjacent pair of mapped points, styled with the configured
color and stroke width, in chronological order: there are `N - 1` of them and
the `k`-th joins points `k` and `k+1` (so the first point is never submitted
on its own). -/
theorem claim_C7_segment_emission (s : Sparkline C P) (h2 : 2 ≤ s.values.length) :
    drawSubs s
        = ((drawPoints s).zip (drawPoints s).tail).map
            (fun ab => (s.draw_fn ab.1 ab.2, s.color, s.stroke_width))
      ∧ (drawSubs s).length = s.values.length - 1
      ∧ ∀ (dpt : Point) (df : P × C × Nat) (k : Nat), k + 1 < s.values.length →
          (drawSubs s).getD k df
            = (s.draw_fn ((drawPoints s).getD k dpt) ((drawPoints s).getD (k + 1) dpt),
               s.color, s.stroke_width) := by
  have hfirst : drawSubs s
      = ((drawPoints s).zip (drawPoints s).tail).map
          (fun ab => (s.draw_fn ab.1 ab.2, s.color, s.stroke_width)) := by
    unfold drawSubs
    rw [drawSegs_eq_zip]
  have hlp := drawPoints_length s
  have hlen : (drawSubs s).length = s.values.length - 1 := by
    rw [hfirst]
    simp [hlp]
  refine ⟨hfirst, hlen, ?_⟩
  intro dpt df k hk
  have hk1 : k < (drawSubs s).length := by omega
  have hkp : k < (drawPoints s).length := by omega
  have hkp1 : k + 1 < (drawPoints s).length := by omega
  rw [List.getD_eq_getElem _ _ hk1, List.getD_eq_getElem _ _ hkp,
    List.getD_eq_getElem _ _ hkp1]
  have hkz : k < (((drawPoints s).zip (drawPoints s).tail).map
      (fun ab => (s.draw_fn ab.1 ab.2, s.color, s.stroke_width))).length := by
    rw [← hfirst]; exact hk1
  simp only [hfirst, List.getElem_map, List.getElem_zip, List.getElem_tail]

/-- Witness for C7 on the store `[0, 5, 10]`: two submissions, the second
joining mapped points 1 and 2. -/
theorem claim_C7_segment_emission_witness :
    (drawSubs (fixStore [0, 5, 10])).length = (fixStore [0, 5, 10]).values.length - 1
      ∧ (drawSubs (fixStore [0, 5, 10])).getD 1 (⟨⟨0, 0⟩, ⟨0, 0⟩⟩, (), 0)
        = ((fixStore [0, 5, 10]).draw_fn
            ((drawPoints (fixStore [0, 5, 10])).getD 1 ⟨0, 0⟩)
            ((drawPoints (fixStore [0, 5, 10])).getD 2 ⟨0, 0⟩),
           (fixStore [0, 5, 10]).color, (fixStore [0, 5, 10]).stroke_width) :=
  ⟨(claim_C7_segment_emission (fixStore [0, 5, 10]) (by decide)).2.1,
   (claim_C7_segment_emission (fixStore [0, 5, 10]) (by decide)).2.2
     ⟨0, 0⟩ (⟨⟨0, 0⟩, ⟨0, 0⟩⟩, (), 0) 1 (by decide)⟩

/-! ## Degenerate stores: fewer than two samples -/

/-- C2: on a store holding 0 or 1 samples, `draw` performs no submission at
all and returns `Ok(())` for every render target. -/
theorem claim_C2_few_samples (s : Sparkline C P) (h1 : s.values.length ≤ 1) :
    drawSegs s = [] ∧ drawSubs s = []
      ∧ ∀ targ : Nat → P × C × Nat → Except ε Unit,
          drawExec s targ = ([], Except.ok ()) := by
  have hsegs : drawSegs s = [] := by
    unfold drawSegs
    rcases hv : s.values with _ | ⟨v, _ | ⟨w, t⟩⟩
    · rfl
    · rw [List.enum_cons]
      simp [segLoop]
    · rw [hv] at h1
      simp at h1
  have hsubs : drawSubs s = [] := by
    unfold drawSubs
    rw [hsegs]
    rfl
  refine ⟨hsegs, hsubs, ?_⟩
  intro targ
  unfold drawExec
  rw [hsubs]
  rfl

/-- Witness for C2 on a one-sample store with a render target that would
reject everything: still zero submissions and success. -/
theorem claim_C2_few_samples_witness :
    drawSegs (fixStore [42]) = [] ∧ drawSubs (fixStore [42]) = []
      ∧ ∀ targ : Nat → (Point × Point) × Unit × Nat → Except String Unit,
          drawExec (fixStore [42]) targ = ([], Except.ok ()) :=
  claim_C2_few_samples (fixStore [42]) (by decide)

/-! ## Determinism of rendering -/

/-- C9: `draw` borrows the sparkline immutably and its output is a function
of the sample buffer and the drawing configuration only (the capacity field
plays no role): the state after a call is the state before it, two stores
that agree on those fields produce identical submission sequences, and a
second call right after a first produces the same submissions again. -/
theorem claim_C9_deterministic (s t : Sparkline C P)
    (hv : s.values = t.values) (hb : s.bbox = t.bbox) (hc : s.color = t.color)
    (hw : s.stroke_width = t.stroke_width) (hf : s.draw_fn = t.draw_fn) :
    (drawCall s).1 = s ∧ (drawCall t).1 = t
      ∧ (drawCall s).2 = (drawCall t).2
      ∧ (drawCall ((drawCall s).1)).2 = (drawCall s).2 := by
  cases s with
  | mk vs bb ms col sw fn =>
    cases t with
    | mk vt bt mt ct swt ft =>
      dsimp only at hv hb hc hw hf
      subst hv
      subst hb
      subst hc
      subst hw
      subst hf
      exact ⟨rfl, rfl, rfl, rfl⟩

/-- Witness for C9: two stores with the same samples and configuration but
different capacities (32 and 99) render identically, and repetition changes
nothing. -/
theorem claim_C9_deterministic_witness :
    (drawCall (fixStore [1, 2])).1 = fixStore [1, 2]
      ∧ (drawCall (fixStore2 [1, 2])).1 = fixStore2 [1, 2]
      ∧ (drawCall (fixStore [1, 2])).2 = (drawCall (fixStore2 [1, 2])).2
      ∧ (drawCall ((drawCall (fixStore [1, 2])).1)).2 = (drawCall (fixStore [1, 2])).2 :=
  claim_C9_deterministic (fixStore [1, 2]) (fixStore2 [1, 2]) rfl rfl rfl rfl rfl

/-! ## Wrap-around arithmetic lemmas -/

theorem wrap32_eq_self (x : Int) (h1 : i32Min ≤ x) (h2 : x ≤ i32Max) :
    wrap32 x = x := by
  unfold i32Min at h1
  unfold i32Max at h2
  unfold wrap32
  omega

theorem i32Sub_self (a : Int) : i32Sub a a = 0 := by
  unfold i32Sub
  rw [sub_self]
  exact wrap32_eq_self 0 (by decide) (by decide)

theorem i32Sub_eq_sub (a b : Int) (h1 : i32Min ≤ a - b) (h2 : a - b ≤ i32Max) :
    i32Sub a b = a - b :=
  wrap32_eq_self _ h1 h2

/-- The saturating `as i32` cast sends any value at or below `i32::MIN` to
`i32::MIN`. -/
theorem ratToI32_le_min (q : ℚ) (h : q ≤ ((i32Min : Int) : ℚ)) :
    ratToI32 q = i32Min := by
  have hq0 : ¬ 0 ≤ q := by
    intro hq
    have hlt : ((i32Min : Int) : ℚ) < 0 := by norm_num [i32Min]
    linarith
  have hceil : ⌈q⌉ ≤ i32Min := Int.ceil_le.mpr (by exact_mod_cast h)
  unfold ratToI32 ratTrunc
  rw [if_neg hq0, min_eq_right (le_trans hceil (by unfold i32Min i32Max; norm_num)),
    max_eq_left hceil]

/-! ## Flat signal -/

/-- C4: when all stored samples are equal (and the store is non-empty), the
scale division is skipped — `slope` stays the raw `height - stroke_width`
value — and every mapped point has the same `y` coordinate, namely the cast
of `topLeft.y + height - strokeWidth / 2`. -/
theorem claim_C4_flat_signal (s : Sparkline C P) (c : Int) (hne : s.values ≠ [])
    (hall : ∀ v ∈ s.values, v = c) (hc : ValidI32 c) :
    slopeOf s = (s.bbox.height : ℚ) - (s.stroke_width : ℚ)
      ∧ ∀ p ∈ drawPoints s,
          p.y = ratToI32 ((s.bbox.topLeft.y : ℚ) + (s.bbox.height : ℚ)
            - (s.stroke_width : ℚ) / 2) := by
  have hvv : ∀ v ∈ s.values, ValidI32 v := fun v hv => (hall v hv) ▸ hc
  have hmm := minMaxFold_eq s.values hne hvv
  have hmin : trueMin s.values = c := hall _ (trueMin_mem s.values hne)
  have hmax : trueMax s.values = c := hall _ (trueMax_mem s.values hne)
  rw [hmin, hmax] at hmm
  have hslope : slopeOf s = (s.bbox.height : ℚ) - (s.stroke_width : ℚ) := by
    simp [slopeOf, hmm]
  refine ⟨hslope, ?_⟩
  intro p hp
  obtain ⟨iv, hiv, hpe⟩ := List.mem_map.mp hp
  have hvmem : iv.2 ∈ s.values := by
    obtain ⟨i, v⟩ := iv
    exact List.snd_mem_of_mem_enum hiv
  have hveq : iv.2 = c := hall _ hvmem
  subst hpe
  simp [pointFn, mapPoint, hmm, hveq, i32Sub_self]

/-- Witness for C4 on the spec's flat batch `[7, 7, 7, 7]`. -/
theorem claim_C4_flat_signal_witness :
    slopeOf (fixStore [7, 7, 7, 7])
        = ((fixStore [7, 7, 7, 7]).bbox.height : ℚ)
          - ((fixStore [7, 7, 7, 7]).stroke_width : ℚ)
      ∧ ∀ p ∈ drawPoints (fixStore [7, 7, 7, 7]),
          p.y = ratToI32 (((fixStore [7, 7, 7, 7]).bbox.topLeft.y : ℚ)
            + ((fixStore [7, 7, 7, 7]).bbox.height : ℚ)
            - ((fixStore [7, 7, 7, 7]).stroke_width : ℚ) / 2) :=
  claim_C4_flat_signal (fixStore [7, 7, 7, 7]) 7 (by decide) (by decide) (by decide)

/-! ## Fail-fast submission -/

theorem submitAll_all_ok (df : P × C × Nat) (l : List (P × C × Nat)) :
    ∀ (n : Nat) (targ : Nat → P × C × Nat → Except ε Unit),
      (∀ j, j < l.length → targ (n + j) (l.getD j df) = Except.ok ()) →
      submitAll targ n l = (l, Except.ok ()) := by
  induction l with
  | nil => intro n targ _; rfl
  | cons sub rest ih =>
    intro n targ h
    have h0 : targ n sub = Except.ok () := by
      simpa using h 0 (by simp)
    have hrest : ∀ j, j < rest.length → targ (n + 1 + j) (rest.getD j df) = Except.ok () := by
      intro j hj
      have e1 : n + 1 + j = n + (j + 1) := by omega
      rw [e1]
      simpa using h (j + 1) (by simpa using Nat.succ_lt_succ hj)
    simp only [submitAll, h0]
    rw [ih (n + 1) targ hrest]

theorem submitAll_first_error (df : P × C × Nat) (l : List (P × C × Nat)) :
    ∀ (n : Nat) (targ : Nat → P × C × Nat → Except ε Unit) (k : Nat) (e : ε),
      k < l.length →
      (∀ j, j < k → targ (n + j) (l.getD j df) = Except.ok ()) →
      targ (n + k) (l.getD k df) = Except.error e →
      submitAll targ n l = (l.take k, Except.error e) := by
  induction l with
  | nil => intro n targ k e hk; simp at hk
  | cons sub rest ih =>
    intro n targ k e hk hpre hfail
    cases k with
    | zero =>
      have h0 : targ n sub = Except.error e := by simpa using hfail
      simp [submitAll, h0]
    | succ m =>
      have h0 : targ n sub = Except.ok () := by
        simpa using hpre 0 (Nat.succ_pos m)
      have hpre' : ∀ j, j < m → targ (n + 1 + j) (rest.getD j df) = Except.ok () := by
        intro j hj
        have e1 : n + 1 + j = n + (j + 1) := by omega
        rw [e1]
        simpa using hpre (j + 1) (by omega)
      have hfail' : targ (n + 1 + m) (rest.getD m df) = Except.error e := by
        have e1 : n + 1 + m = n + (m + 1) := by omega
        rw [e1]
        simpa using hfail
      simp only [submitAll, h0]
      rw [ih (n + 1) targ m e (by simpa using hk) hpre' hfail']
      simp

/-- C8: against any render target, if the target accepts the first `k`
submissions and rejects the `k+1`-st with error `e`, `draw` returns exactly
that error, submits nothing further, and the `k` earlier submissions remain;
if the target accepts everything, `draw` submits all segments and returns
`Ok(())`. -/
theorem claim_C8_fail_fast (s : Sparkline C P)
    (targ : Nat → P × C × Nat → Except ε Unit) (df : P × C × Nat)
    (k : Nat) (e : ε) :
    (k < (drawSubs s).length →
        (∀ j, j < k → targ j ((drawSubs s).getD j df) = Except.ok ()) →
        targ k ((drawSubs s).getD k df) = Except.error e →
        drawExec s targ = ((drawSubs s).take k, Except.error e))
      ∧ ((∀ j, j < (drawSubs s).length →
            targ j ((drawSubs s).getD j df) = Except.ok ()) →
          drawExec s targ = (drawSubs s, Except.ok ())) := by
  constructor
  · intro hk hpre hfail
    unfold drawExec
    exact submitAll_first_error df (drawSubs s) 0 targ k e hk
      (fun j hj => by simpa using hpre j hj) (by simpa using hfail)
  · intro hall
    unfold drawExec
    exact submitAll_all_ok df (drawSubs s) 0 targ
      (fun j hj => by simpa using hall j hj)

/-- Witness for C8 on a four-sample store (three submissions): a target
failing at index 1 stops after one successful submission and propagates the
error; an always-accepting target draws all three and succeeds. -/
theorem claim_C8_fail_fast_witness :
    drawExec (fixStore [0, 5, 10, 2]) failTarg
        = ((drawSubs (fixStore [0, 5, 10, 2])).take 1, Except.error "backend")
      ∧ drawExec (fixStore [0, 5, 10, 2]) okTarg
        = (drawSubs (fixStore [0, 5, 10, 2]), Except.ok ()) :=
  ⟨(claim_C8_fail_fast (fixStore [0, 5, 10, 2]) failTarg
      (⟨⟨0, 0⟩, ⟨0, 0⟩⟩, (), 0) 1 "backend").1
      (by decide) (by decide) (by decide),
   (claim_C8_fail_fast (fixStore [0, 5, 10, 2]) okTarg
      (⟨⟨0, 0⟩, ⟨0, 0⟩⟩, (), 0) 0 "backend").2 (by decide)⟩

/-! ## Point mapping -/

/-- C3 (amended): with at least two `i32` samples whose spread `max - min`
fits in `i32`, a box of positive `u32` width and a store of `usize` length,
the `i`-th mapped point is given by the closed-form spec formula with the
code's truncating saturating cast in place of round-to-nearest: the slope and
horizontal spacing are the spec's mathematical values. -/
theorem claim_C3_point_mapping (s : Sparkline C P)
    (hv : ∀ v ∈ s.values, ValidI32 v) (h2 : 2 ≤ s.values.length)
    (hlen : s.values.length < 2 ^ 64) (hw1 : 1 ≤ s.bbox.width)
    (hw2 : s.bbox.width < 2 ^ 32)
    (hspread : trueMax s.values - trueMin s.values ≤ i32Max)
    (k : Nat) (hk : k < s.values.length) (dpt : Point) :
    (drawPoints s).getD k dpt = specPoint s k (s.values.getD k 0) := by
  have hne : s.values ≠ [] := by
    intro h
    rw [h] at h2
    simp at h2
  have hmm := minMaxFold_eq s.values hne hv
  have hmnmx : trueMin s.values ≤ trueMax s.values :=
    trueMin_le s.values _ (trueMax_mem s.values hne)
  have hslope : slopeOf s
      = (if trueMax s.values ≠ trueMin s.values
         then ((s.bbox.height : ℚ) - (s.stroke_width : ℚ))
              / ((trueMax s.values : ℚ) - (trueMin s.values : ℚ))
         else (s.bbox.height : ℚ) - (s.stroke_width : ℚ)) := by
    simp only [slopeOf, hmm]
    by_cases hcase : trueMax s.values = trueMin s.values
    · rw [if_neg (not_not_intro hcase), if_neg (not_not_intro hcase)]
    · have hsubm : i32Sub (trueMax s.values) (trueMin s.values)
          = trueMax s.values - trueMin s.values :=
        i32Sub_eq_sub _ _ (by unfold i32Min; omega) hspread
      rw [if_pos hcase, if_pos hcase, hsubm]
      push_cast
      rfl
  have hu32 : u32Sub s.bbox.width 1 = s.bbox.width - 1 := by
    unfold u32Sub
    omega
  have husize : usizeSub s.values.length 1 = s.values.length - 1 := by
    unfold usizeSub
    omega
  have hpx : pxPerSeg s = ((s.bbox.width : ℚ) - 1) / ((s.values.length : ℚ) - 1) := by
    unfold pxPerSeg
    rw [hu32, husize, Nat.cast_sub hw1,
      Nat.cast_sub (by omega : 1 ≤ s.values.length), Nat.cast_one]
  have hkd : k < (drawPoints s).length := by
    rw [drawPoints_length]
    exact hk
  rw [List.getD_eq_getElem _ _ hkd, List.getD_eq_getElem _ _ hk]
  have hvmem : s.values[k] ∈ s.values := List.getElem_mem hk
  have hsubv : i32Sub s.values[k] (trueMin s.values)
      = s.values[k] - trueMin s.values := by
    have h1 : trueMin s.values ≤ s.values[k] := trueMin_le s.values _ hvmem
    have h2' : s.values[k] ≤ trueMax s.values := trueMax_le s.values _ hvmem
    exact i32Sub_eq_sub _ _ (by unfold i32Min; omega)
      (by unfold i32Max at hspread ⊢; omega)
  simp only [drawPoints, List.getElem_map, List.getElem_enum]
  have hfst : (minMaxFold s.values).1 = trueMin s.values := by rw [hmm]
  simp only [pointFn, mapPoint, specPoint]
  rw [hfst, hslope, hpx, hsubv, Int.cast_sub]

/-- Witness for C3 (amended) at the store `[0, 1]`, index 1. -/
theorem claim_C3_point_mapping_witness :
    (drawPoints cexStore).getD 1 ⟨0, 0⟩ = specPoint cexStore 1 (cexStore.values.getD 1 0) :=
  claim_C3_point_mapping cexStore (by decide) (by decide) (by decide)
    (by decide) (by decide) (by decide) 1 (by decide) ⟨0, 0⟩

/-- Counterexample to C3 as stated: on the store `[0, 1]` in a 4×5 box with
stroke width 1, the code computes the point `(3, 0)` for the second sample —
it truncates `5 - 4 - 0.5 = 0.5` toward zero — while the claim's formula
`y = topLeft.y + height - round((v - min) * slope) - strokeWidth / 2`
yields `(3, 1)`. -/
theorem claim_C3_counterexample :
    (drawPoints cexStore).getD 1 ⟨0, 0⟩ ≠ claimPoint cexStore 1 1 := by
  have h1 : (drawPoints cexStore).getD 1 ⟨0, 0⟩ = pointFn cexStore 1 1 := rfl
  have hmm : minMaxFold cexStore.values = (0, 1) := by decide
  have hsub : i32Sub 1 0 = 1 := by decide
  have hslope : slopeOf cexStore = 4 := by
    simp only [slopeOf, hmm, hsub]
    norm_num [cexStore, box2]
  have hpx : pxPerSeg cexStore = 3 := by
    norm_num [pxPerSeg, cexStore, box2, u32Sub, usizeSub]
  have hpt : pointFn cexStore 1 1 = ⟨3, 0⟩ := by
    simp only [pointFn, mapPoint, hmm, hslope, hpx, hsub]
    norm_num [cexStore, box2, ratToI32, ratTrunc, i32Add, wrap32, i32Min, i32Max]
  have hcl : claimPoint cexStore 1 1 = ⟨3, 1⟩ := by
    simp only [claimPoint]
    norm_num [cexStore, box2, trueMin, trueMax, List.foldl, round_eq]
  rw [h1, hpt, hcl]
  decide

/-! ## Overflow of the spread computation -/

/-- C10: on a store holding both `i32::MIN` and `i32::MAX`, the code's `i32`
subtraction `max - min` wraps to `-1` although the mathematical spread is
`2^32 - 1`, so the computed slope is `-4` instead of the intended
`4 / 4294967295`, and the mapped point for the middle sample differs from
the mathematically intended one. -/
theorem claim_C10_spread_overflow :
    minMaxFold ovStore.values = (i32Min, i32Max)
      ∧ i32Sub i32Max i32Min = -1
      ∧ i32Max - i32Min = 4294967295
      ∧ i32Sub i32Max i32Min ≠ i32Max - i32Min
      ∧ slopeOf ovStore = -4
      ∧ ((ovStore.bbox.height : ℚ) - (ovStore.stroke_width : ℚ))
          / ((i32Max : ℚ) - (i32Min : ℚ)) = 4 / 4294967295
      ∧ slopeOf ovStore
          ≠ ((ovStore.bbox.height : ℚ) - (ovStore.stroke_width : ℚ))
            / ((i32Max : ℚ) - (i32Min : ℚ))
      ∧ (drawPoints ovStore).getD 1 ⟨0, 0⟩ = ⟨1, -2147483648⟩
      ∧ specPoint ovStore 1 0 = ⟨1, 2⟩
      ∧ (drawPoints ovStore).getD 1 ⟨0, 0⟩ ≠ specPoint ovStore 1 0 := by
  have hmm : minMaxFold ovStore.values = (i32Min, i32Max) := by decide
  have hsub : i32Sub i32Max i32Min = -1 := by decide
  have hsub0 : i32Sub 0 i32Min = -2147483648 := by decide
  have hslope : slopeOf ovStore = -4 := by
    simp only [slopeOf, hmm, hsub]
    norm_num [ovStore, box2, i32Min, i32Max]
  have hpx : pxPerSeg ovStore = 3 / 2 := by
    norm_num [pxPerSeg, ovStore, box2, u32Sub, usizeSub]
  have hintended : ((ovStore.bbox.height : ℚ) - (ovStore.stroke_width : ℚ))
      / ((i32Max : ℚ) - (i32Min : ℚ)) = 4 / 4294967295 := by
    norm_num [ovStore, box2, i32Min, i32Max]
  have hx2 : ratToI32 (3 / 2) = 1 := by
    unfold ratToI32 ratTrunc
    norm_num [i32Min, i32Max]
  have hpt : (drawPoints ovStore).getD 1 ⟨0, 0⟩ = ⟨1, -2147483648⟩ := by
    have h1 : (drawPoints ovStore).getD 1 ⟨0, 0⟩ = pointFn ovStore 1 0 := rfl
    rw [h1]
    simp only [pointFn, mapPoint, hmm, hslope, hpx, hsub0, Point.mk.injEq]
    constructor
    · have hx1 : ((1 : Nat) : ℚ) * (3 / 2) = 3 / 2 := by norm_num
      rw [hx1, hx2]
      norm_num [ovStore, box2, i32Add, wrap32]
    · have hy1 : ((ovStore.bbox.topLeft.y : Int) : ℚ) + (ovStore.bbox.height : ℚ)
          - ((-2147483648 : Int) : ℚ) * (-4) - (ovStore.stroke_width : ℚ) / 2
          = -(17179869175 : ℚ) / 2 := by
        norm_num [ovStore, box2]
      rw [hy1]
      rw [ratToI32_le_min _ (by norm_num [i32Min])]
      unfold i32Min
      norm_num
  have hspec : specPoint ovStore 1 0 = ⟨1, 2⟩ := by
    have htmin : trueMin ovStore.values = i32Min := by decide
    have htmax : trueMax ovStore.values = i32Max := by decide
    simp only [specPoint, htmin, htmax, Point.mk.injEq]
    rw [if_pos (by decide : i32Max ≠ i32Min)]
    constructor
    · have hx1 : ((1 : Nat) : ℚ)
          * (((ovStore.bbox.width : ℚ) - 1) / ((ovStore.values.length : ℚ) - 1))
          = 3 / 2 := by
        norm_num [ovStore, box2]
      rw [hx1, hx2]
      norm_num [ovStore, box2, i32Add, wrap32]
    · have hy1 : ((ovStore.bbox.topLeft.y : Int) : ℚ) + (ovStore.bbox.height : ℚ)
          - (((0 : Int) : ℚ) - ((i32Min : Int) : ℚ))
            * (((ovStore.bbox.height : ℚ) - (ovStore.stroke_width : ℚ))
              / ((i32Max : ℚ) - (i32Min : ℚ)))
          - (ovStore.stroke_width : ℚ) / 2
          = 21474836471 / 8589934590 := by
        norm_num [ovStore, box2, i32Min, i32Max]
      rw [hy1]
      unfold ratToI32 ratTrunc
      norm_num [i32Min, i32Max]
  refine ⟨hmm, hsub, by decide, by decide, hslope, hintended, ?_, hpt, hspec, ?_⟩
  · rw [hslope, hintended]
    norm_num
  · rw [hpt, hspec]
    decide

end Sparklines
